import Mathlib

/-!
Shallow embedding of gs_quant/markets/core.py: the PricingCache, the
PricingContext with its pending-futures map, the request-grouping and
dispatch logic of PricingContext.__calc / run_requests, and
PricingContext.calc / _on_exit.

Python dictionaries are modelled as insertion-ordered association lists
(lookup by the first matching key, update in place, insertion of a new key
at the end — exactly the semantics of dict.setdefault followed by
mutation).  Python sets whose contents are later sorted are modelled as
duplicate-free insertion-ordered lists together with an explicit sort at
the point of use.  Futures (gs_quant.risk.results.PricingFuture, whose
source is not part of this repository) are modelled from the spec as
single-assignment cells identified by a numeric id in a global store.
Thread interleavings of the per-provider dispatch workers are modelled by
an explicit provider order parameter; the sequential inline path is the
insertion order.
-/

/-- Lookup in an insertion-ordered association list (Python d.get k). -/
def alookup {α β : Type} [DecidableEq α] : List (α × β) → α → Option β
  | [], _ => none
  | (k, v) :: rest, a => if k = a then some v else alookup rest a

/-- Update in place if the key is present, else append at the end
(Python dict assignment / setdefault-then-mutate semantics). -/
def aset {α β : Type} [DecidableEq α] : List (α × β) → α → β → List (α × β)
  | [], a, b => [(a, b)]
  | (k, v) :: rest, a, b => if k = a then (a, b) :: rest else (k, v) :: aset rest a b

/-- Remove the first binding of a key, returning its value (Python
d.pop k, which raises KeyError when the key is absent — here, none). -/
def apop {α β : Type} [DecidableEq α] : List (α × β) → α → Option (β × List (α × β))
  | [], _ => none
  | (k, v) :: rest, a =>
      if k = a then some (v, rest)
      else
        match apop rest a with
        | none => none
        | some (b, rest2) => some (b, (k, v) :: rest2)

/-- Membership test by decidable equality (Python `x in s`). -/
def memDec {α : Type} [DecidableEq α] (a : α) : List α → Bool
  | [] => false
  | x :: xs => if x = a then true else memDec a xs

/-- Insert into a list sorted by the boolean relation le. -/
def insertLe {α : Type} (le : α → α → Bool) (a : α) : List α → List α
  | [] => [a]
  | x :: xs => if le a x then a :: x :: xs else x :: insertLe le a xs

/-- Insertion sort by the boolean relation le (Python sorted). -/
def sortLe {α : Type} (le : α → α → Bool) : List α → List α
  | [] => []
  | x :: xs => insertLe le x (sortLe le xs)

/-- Market: a reproducible close snapshot or a live (streaming) market.
Translates the CloseMarket / LiveMarket classes of gs_quant.markets
as far as core.py observes them (isinstance(-, LiveMarket)). -/
inductive Market
  | close (id : Nat)
  | live (id : Nat)
deriving DecidableEq

/-- True exactly for LiveMarket instances. -/
def Market.isLive : Market → Bool
  | .live _ => true
  | .close _ => false

/-- Sort key for a market, used when Python sorts (date, market) tuples. -/
def Market.sortKey : Market → Nat × Nat
  | .close i => (0, i)
  | .live i => (1, i)

/-- Values a calculation can produce or a future can be resolved with:
a proper result (DataFrameWithInfo / FloatWithInfo / StringWithInfo),
an ErrorValue, or a Python exception object (the `e` of the except
branch of run_requests, which flows into set_result like any value). -/
inductive RVal
  | frame (v : Int)
  | err (code : Nat)
  | exn (code : Nat)
deriving DecidableEq

/-- Translates isinstance(result, ErrorValue): true only for ErrorValue,
not for exception objects. -/
def RVal.isErrorValue : RVal → Bool
  | .err _ => true
  | _ => false

/-- Priceable instrument as observed by core.py: identity, its provider
(priceable.provider()) and its quantity (priceable.get_quantity()). -/
structure Priceable where
  id : Nat
  provider : Nat
  quantity : Int
deriving DecidableEq

/-- RiskRequestParameters(csa_term=..., raw_results=True). -/
structure RiskRequestParameters where
  csaTerm : Option Nat
  rawResults : Bool
deriving DecidableEq

/-- MarketDataScenario as built by PricingContext.__scenario: the single
scenario when the path has one entry, else a CompositeScenario of the
reversed path. -/
inductive MarketDataScenario
  | single (s : Nat)
  | composite (ss : List Nat)
deriving DecidableEq

/-- PricingContext.__scenario: None when Scenario.path is empty,
the sole element when it is a singleton, otherwise a composite of the
reversed path. -/
def scenarioOfPath : List Nat → Option MarketDataScenario
  | [] => none
  | [s] => some (.single s)
  | ss => some (.composite ss.reverse)

/-- RiskKey(provider, pricing_date, market, parameters, scenario,
risk_measure); risk measures are identified by a Nat. -/
structure RiskKey where
  provider : Nat
  date : Nat
  market : Market
  params : RiskRequestParameters
  scenario : Option MarketDataScenario
  riskMeasure : Nat
deriving DecidableEq

/-- PricingCache.__cache: priceable → (risk key → value).  The weak
referencing of priceables is not observable by any of the cache
operations themselves and is not modelled. -/
abbrev Cache := List (Priceable × List (RiskKey × RVal))

/-- PricingCache.get: cls.__cache.get(priceable, empty).get(risk_key). -/
def PricingCache.get (c : Cache) (rk : RiskKey) (p : Priceable) : Option RVal :=
  alookup ((alookup c p).getD []) rk

/-- PricingCache.put: stores unless the result is an ErrorValue or the
key's market is a LiveMarket; setdefault(priceable, empty)[risk_key] = result. -/
def PricingCache.put (c : Cache) (rk : RiskKey) (p : Priceable) (r : RVal) : Cache :=
  if !r.isErrorValue && !rk.market.isLive then
    aset c p (aset ((alookup c p).getD []) rk r)
  else c

/-- PricingCache.drop: pop the priceable's entry when present. -/
def PricingCache.drop (c : Cache) (p : Priceable) : Cache :=
  match apop c p with
  | some (_, c2) => c2
  | none => c

/-- PricingCache.clear assigns a fresh WeakKeyDictionary to a local
variable named __cache inside the classmethod body, so the class-level
store is left untouched: its net effect on the cache contents is the
identity. -/
def PricingCache.clear (c : Cache) : Cache := c

/-- Configuration of one PricingContext, fixed at construction.  cid is
the object identity used to key the per-context pending maps. -/
structure CtxCfg where
  cid : Nat
  pricingDate : Nat
  market : Market
  csaTerm : Option Nat
  isAsync : Bool
  isBatch : Bool
  useCache : Bool
  visibleToGs : Bool
deriving DecidableEq

/-- PricingContext.__parameters: RiskRequestParameters(csa_term, raw_results=True). -/
def CtxCfg.parameters (c : CtxCfg) : RiskRequestParameters :=
  ⟨c.csaTerm, true⟩

/-- PricingContext.__risk_key(risk_measure, provider): built from the
calling context's own date, market and parameters, and the ambient
scenario path. -/
def riskKeyOf (c : CtxCfg) (scenarioPath : List Nat) (measure : Nat) (provider : Nat) :
    RiskKey :=
  ⟨provider, c.pricingDate, c.market, c.parameters, scenarioOfPath scenarioPath, measure⟩

/-- Pending map of one context: (risk key, priceable) → future id. -/
abbrev Pending := List ((RiskKey × Priceable) × Nat)

/-- Global mutable state: the ambient Scenario.path, the PricingContext
stack (entered contexts, innermost last — modelled from the spec, since
context_base.py is not part of this repository), the per-context pending
maps, the future store, the fresh-future counter and the cache. -/
structure World where
  scenarioPath : List Nat
  path : List CtxCfg
  pendings : List (Nat × Pending)
  futures : List (Nat × Option RVal)
  nextFut : Nat
  cache : Cache
deriving DecidableEq

/-- Modelled from the spec: is_entered (context_base.py is not part of
this repository) — membership of the entered-context stack. -/
def World.isEntered (w : World) (c : CtxCfg) : Bool :=
  memDec c w.path

/-- PricingContext.active_context: the innermost entered context on the
stack, else the context itself. -/
def World.activeContext (w : World) (selfc : CtxCfg) : CtxCfg :=
  match w.path.reverse.find? (fun d => w.isEntered d) with
  | some c => c
  | none => selfc

/-- Pending map of the context with the given id (empty when absent). -/
def World.pendingOf (w : World) (cid : Nat) : Pending :=
  (alookup w.pendings cid).getD []

/-- Replace the pending map of one context. -/
def World.setPending (w : World) (cid : Nat) (p : Pending) : World :=
  { w with pendings := aset w.pendings cid p }

/-- Completion state of a future: none when no such future exists or it
is still pending, some v once resolved with v. -/
def World.futResult (w : World) (fid : Nat) : Option RVal :=
  (alookup w.futures fid).getD none

/-- Modelled from the spec: PricingFuture (gs_quant.risk.results, not in
this repository) is a single-assignment result holder; a fresh one is
unresolved. -/
def World.newFuture (w : World) : Nat × World :=
  (w.nextFut,
   { w with futures := aset w.futures w.nextFut none, nextFut := w.nextFut + 1 })

/-- Modelled from the spec: PricingFuture.set_result completes the
future with the given value.  In every trace of this model each pending
entry is popped from the map before its future is resolved, so the
single-assignment discipline is respected without a separate check. -/
def World.setResult (w : World) (fid : Nat) (v : RVal) : World :=
  { w with futures := aset w.futures fid (some v) }

/-- Lines 301-312 of core.py: the body of calc under the active
context's lock.  Returns the future id and the updated world. -/
def calcRegister (selfc : CtxCfg) (p : Priceable) (measure : Nat) (w : World) :
    Nat × World :=
  let active := w.activeContext selfc
  let rk := riskKeyOf selfc w.scenarioPath measure p.provider
  match alookup (w.pendingOf active.cid) (rk, p) with
  | some fid => (fid, w)
  | none =>
      let (fid, w1) := w.newFuture
      let cached := if selfc.useCache then PricingCache.get w1.cache rk p else none
      match cached with
      | some v => (fid, w1.setResult fid v)
      | none => (fid, w1.setPending active.cid (aset (w1.pendingOf active.cid) (rk, p) fid))

/-- Grouping key (key.params, key.scenario, key.date, key.market). -/
abbrev GKey := RiskRequestParameters × Option MarketDataScenario × Nat × Market

/-- Lines 169-175 of core.py: under the lock, group the pending keys as
provider → (params, scenario, date, market) → priceable → risk measures.
The innermost Python set is modelled as a duplicate-free insertion list,
sorted at its point of use below. -/
def groupPending (pend : Pending) :
    List (Nat × List (GKey × List (Priceable × List Nat))) :=
  pend.foldl
    (fun acc kv =>
      let rk := kv.1.1
      let p := kv.1.2
      let inner1 := (alookup acc rk.provider).getD []
      let gkey : GKey := (rk.params, rk.scenario, rk.date, rk.market)
      let inner2 := (alookup inner1 gkey).getD []
      let ms := (alookup inner2 p).getD []
      let ms2 := if memDec rk.riskMeasure ms then ms else ms ++ [rk.riskMeasure]
      aset acc rk.provider (aset inner1 gkey (aset inner2 p ms2)))
    []

/-- Lines 184-187 of core.py: invert to
(params, scenario, date, market, sorted risk measures) → priceable list. -/
def requestsForProvider (byG : List (GKey × List (Priceable × List Nat))) :
    List ((GKey × List Nat) × List Priceable) :=
  byG.foldl
    (fun acc gkv =>
      gkv.2.foldl
        (fun acc2 pm =>
          let k := (gkv.1, sortLe Nat.ble pm.2)
          aset acc2 k (((alookup acc2 k).getD []) ++ [pm.1]))
        acc)
    []

/-- Signature under which date/market variation is collected:
(params, scenario, sorted risk measures, priceables tuple). -/
abbrev DMKey := RiskRequestParameters × Option MarketDataScenario × List Nat × List Priceable

/-- One step of the line 190-193 regrouping: fold one
((params, scenario, date, market, measures), priceables) group into the
accumulator, keyed by (params, scenario, measures, priceables) and
adding (date, market) to that signature's set. -/
def rbdmStep (acc : List (DMKey × List (Nat × Market)))
    (kv : (GKey × List Nat) × List Priceable) : List (DMKey × List (Nat × Market)) :=
  let params := kv.1.1.1
  let scen := kv.1.1.2.1
  let date := kv.1.1.2.2.1
  let market := kv.1.1.2.2.2
  let key : DMKey := (params, scen, kv.1.2, kv.2)
  let dm := (alookup acc key).getD []
  let dm2 := if memDec (date, market) dm then dm else dm ++ [(date, market)]
  aset acc key dm2

/-- Lines 190-193 of core.py: regroup ignoring date/market, collecting
the set of (date, market) pairs per signature. -/
def requestsByDateMarket (rfp : List ((GKey × List Nat) × List Priceable)) :
    List (DMKey × List (Nat × Market)) :=
  rfp.foldl rbdmStep []

/-- RiskPosition(instrument=p, quantity=p.get_quantity()). -/
structure RiskPosition where
  instrument : Priceable
  quantity : Int
deriving DecidableEq

/-- PricingDateAndMarketDataAsOf(pricing_date, market). -/
structure PricingDateAndMarketDataAsOf where
  pricingDate : Nat
  market : Market
deriving DecidableEq

/-- RiskRequest as built in lines 195-207 of core.py. -/
structure RiskRequest where
  positions : List RiskPosition
  riskMeasures : List Nat
  parameters : RiskRequestParameters
  waitForResults : Bool
  scenario : Option MarketDataScenario
  asOf : List PricingDateAndMarketDataAsOf
  visibleToGs : Bool
deriving DecidableEq

/-- Order on (date, market) pairs used by Python sorted(dates_markets):
lexicographic on the date, then on the market sort key. -/
def dmLe (a b : Nat × Market) : Bool :=
  if a.1 = b.1 then
    if a.2.sortKey.1 = b.2.sortKey.1 then a.2.sortKey.2 ≤ b.2.sortKey.2
    else a.2.sortKey.1 ≤ b.2.sortKey.1
  else a.1 ≤ b.1

/-- Lines 195-207 of core.py: one RiskRequest per (params, scenario,
risk measures, priceables) group; positions from the priceables, as-of
pairs sorted; parameters, wait_for_results and visibility from the
flushing context itself. -/
def buildRequests (selfc : CtxCfg) (rbdm : List (DMKey × List (Nat × Market))) :
    List RiskRequest :=
  rbdm.map
    (fun kv =>
      { positions := kv.1.2.2.2.map (fun p => ⟨p, p.quantity⟩)
        riskMeasures := kv.1.2.2.1
        parameters := selfc.parameters
        waitForResults := !selfc.isBatch
        scenario := kv.1.2.1
        asOf := (sortLe dmLe kv.2).map (fun dm => ⟨dm.1, dm.2⟩)
        visibleToGs := selfc.visibleToGs })

/-- Lines 169-207 of core.py: the requests each provider will be sent,
computed from the flushing context's pending map under the lock.  This
is the drain/group step of a flush wave. -/
def providerRequests (selfc : CtxCfg) (w : World) : List (Nat × List RiskRequest) :=
  (groupPending (w.pendingOf selfc.cid)).map
    (fun pv => (pv.1, buildRequests selfc (requestsByDateMarket (requestsForProvider pv.2))))

/-- ResultSet: the per-request dict mapping (risk_key, priceable) to a
value, as returned by provider.calc_multi / get_results. -/
abbrev ResultSet := List ((RiskKey × Priceable) × RVal)

/-- Behaviour of the external providers: given the provider identity and
the requests, either the result sets or a raised exception code. -/
abbrev ProviderBehavior := Nat → List RiskRequest → Except Nat (List ResultSet)

/-- Python error surfaced by the finally block of run_requests: a
KeyError from self.__pending.pop on an absent key. -/
inductive PyErr
  | keyError
deriving DecidableEq

/-- Lines 160-167 of core.py (the finally block, inner loop): for each
(risk_key, priceable) → value, put into the cache when use_cache, then
pop the pending entry and resolve its future.  Stops with a KeyError
when the pop misses; effects up to that point persist. -/
def processItems (useCache : Bool) (cid : Nat) :
    ResultSet → World → World × Option PyErr
  | [], w => (w, none)
  | (kp, v) :: rest, w =>
      let w1 :=
        if useCache then { w with cache := PricingCache.put w.cache kp.1 kp.2 v } else w
      match apop (w1.pendingOf cid) kp with
      | none => (w1, some .keyError)
      | some (fid, pend2) =>
          processItems useCache cid rest ((w1.setPending cid pend2).setResult fid v)

/-- Lines 162-167 of core.py (the finally block, outer loop over the
result sets). -/
def processSets (useCache : Bool) (cid : Nat) :
    List ResultSet → World → World × Option PyErr
  | [], w => (w, none)
  | s :: rest, w =>
      match processItems useCache cid s w with
      | (w1, none) => processSets useCache cid rest w1
      | (w1, some e) => (w1, some e)

/-- Lines 149-167 of core.py: run_requests.  On a provider exception the
except branch replaces the results with a single dict mapping every key
currently pending in the flushing context — whatever its destined
provider — to that exception; the finally block then resolves and pops
each resulted key. -/
def runRequests (selfc : CtxCfg) (beh : ProviderBehavior) (provider : Nat)
    (requests : List RiskRequest) (w : World) : World × Option PyErr :=
  let results : List ResultSet :=
    match beh provider requests with
    | .ok rs => rs
    | .error e => [(w.pendingOf selfc.cid).map (fun kv => (kv.1, RVal.exn e))]
  processSets selfc.useCache selfc.cid results w

/-- Dispatch step of a flush wave: run the per-provider requests (as
computed at drain time) in the given serialization order.  The grouping
snapshot rbp and the world at dispatch time are separate arguments
because dispatch runs outside the lock: a registration may land between
the drain and a worker's finally block. -/
def dispatchWave (selfc : CtxCfg) (beh : ProviderBehavior)
    (rbp : List (Nat × List RiskRequest)) : List Nat → World → World × List PyErr
  | [], w => (w, [])
  | prov :: rest, w =>
      match alookup rbp prov with
      | none => dispatchWave selfc beh rbp rest w
      | some reqs =>
          match runRequests selfc beh prov reqs w with
          | (w2, none) => dispatchWave selfc beh rbp rest w2
          | (w2, some e) =>
              match dispatchWave selfc beh rbp rest w2 with
              | (w3, errs) => (w3, e :: errs)

/-- PricingContext.__calc with an explicit serialization order of the
per-provider workers (the thread pool of lines 209-215). -/
def privCalc (selfc : CtxCfg) (beh : ProviderBehavior) (order : List Nat) (w : World) :
    World × List PyErr :=
  dispatchWave selfc beh (providerRequests selfc w) order w

/-- PricingContext.__calc on the sequential inline path (single
provider, or any pool serialization equal to insertion order). -/
def privCalcSeq (selfc : CtxCfg) (beh : ProviderBehavior) (w : World) :
    World × List PyErr :=
  privCalc selfc beh ((providerRequests selfc w).map (fun pv => pv.1)) w

/-- Lines 285-317 of core.py: calc.  Registers (or reuses, or serves
from cache) the future, then — when the calling context is neither
entered nor async — flushes the calling context itself synchronously. -/
def calcFn (selfc : CtxCfg) (beh : ProviderBehavior) (p : Priceable) (measure : Nat)
    (w : World) : Nat × World × List PyErr :=
  let (fid, w1) := calcRegister selfc p measure w
  if !(w1.isEntered selfc || selfc.isAsync) then
    let (w2, errs) := privCalcSeq selfc beh w1
    (fid, w2, errs)
  else (fid, w1, [])

/-- Lines 139-143 of core.py: _on_exit.  When an exception value is
propagating it is re-raised immediately (returned as the middle
component) and no flush runs; otherwise the context flushes itself. -/
def onExit (selfc : CtxCfg) (beh : ProviderBehavior) (excVal : Option Nat) (w : World) :
    World × Option Nat × List PyErr :=
  match excVal with
  | some e => (w, some e, [])
  | none =>
      let (w2, errs) := privCalcSeq selfc beh w
      (w2, none, errs)

/-! Helper lemmas about the association-list operations. -/

theorem alookup_aset_self {α β : Type} [DecidableEq α] (l : List (α × β)) (a : α) (b : β) :
    alookup (aset l a b) a = some b := by
  induction l with
  | nil => simp [aset, alookup]
  | cons kv rest ih =>
      obtain ⟨k, v⟩ := kv
      by_cases h : k = a
      · simp [aset, alookup, h]
      · simp [aset, alookup, h, ih]

theorem alookup_aset_ne {α β : Type} [DecidableEq α] (l : List (α × β)) (a a2 : α) (b : β)
    (h : a ≠ a2) : alookup (aset l a b) a2 = alookup l a2 := by
  induction l with
  | nil => simp [aset, alookup, h]
  | cons kv rest ih =>
      obtain ⟨k, v⟩ := kv
      by_cases hk : k = a
      · subst hk
        simp [aset, alookup, h, Ne.symm h]
      · by_cases hk2 : k = a2 <;> simp [aset, alookup, hk, hk2, Ne.symm h, ih]

theorem alookup_mem {α β : Type} [DecidableEq α] (l : List (α × β)) (a : α) (b : β)
    (h : alookup l a = some b) : (a, b) ∈ l := by
  induction l with
  | nil => simp [alookup] at h
  | cons kv rest ih =>
      obtain ⟨k, v⟩ := kv
      by_cases hk : k = a
      · subst hk
        simp [alookup] at h
        subst h
        exact List.mem_cons_self _ _
      · simp [alookup, hk] at h
        exact List.mem_cons_of_mem _ (ih h)

theorem apop_mem {α β : Type} [DecidableEq α] (l : List (α × β)) (a : α) (b : β)
    (l2 : List (α × β)) (h : apop l a = some (b, l2)) : (a, b) ∈ l := by
  induction l generalizing l2 with
  | nil => simp [apop] at h
  | cons kv rest ih =>
      obtain ⟨k, v⟩ := kv
      by_cases hk : k = a
      · subst hk
        simp [apop] at h
        rw [h.1]
        exact List.mem_cons_self _ _
      · simp [apop, hk] at h
        match hrec : apop rest a with
        | none => rw [hrec] at h; simp at h
        | some (b2, rest2) =>
            rw [hrec] at h
            simp at h
            rw [h.1] at hrec
            exact List.mem_cons_of_mem _ (ih rest2 hrec)

theorem apop_subset {α β : Type} [DecidableEq α] (l : List (α × β)) (a : α) (b : β)
    (l2 : List (α × β)) (h : apop l a = some (b, l2)) : ∀ x ∈ l2, x ∈ l := by
  induction l generalizing l2 with
  | nil => simp [apop] at h
  | cons kv rest ih =>
      obtain ⟨k, v⟩ := kv
      by_cases hk : k = a
      · subst hk
        simp [apop] at h
        intro x hx
        exact List.mem_cons_of_mem _ (h.2 ▸ hx)
      · simp [apop, hk] at h
        match hrec : apop rest a with
        | none => rw [hrec] at h; simp at h
        | some (b2, rest2) =>
            rw [hrec] at h
            simp at h
            rw [h.1] at hrec
            intro x hx
            rw [← h.2] at hx
            rcases List.mem_cons.mp hx with h1 | h1
            · rw [h1]; exact List.mem_cons_self _ _
            · exact List.mem_cons_of_mem _ (ih rest2 hrec x h1)

theorem apop_ne_alookup {α β : Type} [DecidableEq α] (l : List (α × β)) (a a2 : α) (b : β)
    (l2 : List (α × β)) (hne : a ≠ a2) (h : apop l a = some (b, l2)) :
    alookup l2 a2 = alookup l a2 := by
  induction l generalizing l2 with
  | nil => simp [apop] at h
  | cons kv rest ih =>
      obtain ⟨k, v⟩ := kv
      by_cases hk : k = a
      · subst hk
        simp [apop] at h
        rw [← h.2]
        simp [alookup, hne]
      · simp [apop, hk] at h
        match hrec : apop rest a with
        | none => rw [hrec] at h; simp at h
        | some (b2, rest2) =>
            rw [hrec] at h
            simp at h
            rw [h.1] at hrec
            rw [← h.2]
            by_cases hk2 : k = a2 <;> simp [alookup, hk2, ih rest2 hrec]

/-! Helper lemmas about the world state. -/

theorem pendingOf_setPending_self (w : World) (cid : Nat) (p : Pending) :
    (w.setPending cid p).pendingOf cid = p := by
  simp [World.setPending, World.pendingOf, alookup_aset_self]

theorem pendingOf_setPending_ne (w : World) (cid cid2 : Nat) (p : Pending)
    (h : cid ≠ cid2) : (w.setPending cid p).pendingOf cid2 = w.pendingOf cid2 := by
  simp [World.setPending, World.pendingOf, alookup_aset_ne _ _ _ _ h]

theorem futResult_setResult_self (w : World) (fid : Nat) (v : RVal) :
    (w.setResult fid v).futResult fid = some v := by
  simp [World.setResult, World.futResult, alookup_aset_self]

theorem futResult_setResult_ne (w : World) (fid fid2 : Nat) (v : RVal)
    (h : fid ≠ fid2) : (w.setResult fid v).futResult fid2 = w.futResult fid2 := by
  simp [World.setResult, World.futResult, alookup_aset_ne _ _ _ _ h]

/-! Lemmas about the finally-block processing of run_requests. -/

/-- Processing the except-branch result set (every currently pending key
mapped to the exception) pops the whole pending map and resolves every
one of its futures — whatever provider each key was destined for — with
that exception; futures already holding the exception keep it. -/
theorem processItems_exn_all (useCache : Bool) (cid : Nat) (e : Nat) :
    ∀ (pend : Pending) (w : World), w.pendingOf cid = pend →
    (processItems useCache cid (pend.map (fun kv => (kv.1, RVal.exn e))) w).2 = none ∧
    (processItems useCache cid (pend.map (fun kv => (kv.1, RVal.exn e))) w).1.pendingOf cid
      = [] ∧
    (∀ fid, (w.futResult fid = some (.exn e) ∨ fid ∈ pend.map (fun kv => kv.2)) →
      (processItems useCache cid (pend.map (fun kv => (kv.1, RVal.exn e))) w).1.futResult fid
        = some (.exn e)) := by
  intro pend
  induction pend with
  | nil =>
      intro w hw
      refine ⟨rfl, hw, ?_⟩
      intro fid hfid
      rcases hfid with h | h
      · exact h
      · simp at h
  | cons kv rest ih =>
      obtain ⟨k0, f0⟩ := kv
      intro w hw
      have hpend1 : (if useCache then
          { w with cache := PricingCache.put w.cache k0.1 k0.2 (RVal.exn e) }
          else w).pendingOf cid = (k0, f0) :: rest := by
        cases useCache <;> exact hw
      have hpop : apop ((if useCache then
          { w with cache := PricingCache.put w.cache k0.1 k0.2 (RVal.exn e) }
          else w).pendingOf cid) k0 = some (f0, rest) := by
        rw [hpend1]; simp [apop]
      have hstep : processItems useCache cid
          (((k0, f0) :: rest).map (fun kv => (kv.1, RVal.exn e))) w
          = processItems useCache cid (rest.map (fun kv => (kv.1, RVal.exn e)))
            (((if useCache then
                { w with cache := PricingCache.put w.cache k0.1 k0.2 (RVal.exn e) }
                else w).setPending cid rest).setResult f0 (RVal.exn e)) := by
        simp only [List.map_cons, processItems]
        rw [hpop]
      have hw2 : (((if useCache then
          { w with cache := PricingCache.put w.cache k0.1 k0.2 (RVal.exn e) }
          else w).setPending cid rest).setResult f0 (RVal.exn e)).pendingOf cid = rest := by
        exact pendingOf_setPending_self _ cid rest
      obtain ⟨ih1, ih2, ih3⟩ := ih _ hw2
      refine ⟨hstep ▸ ih1, hstep ▸ ih2, ?_⟩
      intro fid hfid
      rw [hstep]
      apply ih3
      by_cases hf : f0 = fid
      · left
        rw [← hf]
        exact futResult_setResult_self _ f0 (RVal.exn e)
      · rcases hfid with h | h
        · left
          rw [futResult_setResult_ne _ _ _ _ hf]
          have : ((if useCache then
              { w with cache := PricingCache.put w.cache k0.1 k0.2 (RVal.exn e) }
              else w).setPending cid rest).futResult fid = w.futResult fid := by
            cases useCache <;> rfl
          rw [this]
          exact h
        · simp at h
          rcases h with h | h
          · exact absurd h.symm hf
          · right
            simpa using h

/-- Lifting of processItems_exn_all to run_requests: when the provider
call raises, the finally block resolves every future pending in the
flushing context at that moment with the exception and empties the map. -/
theorem runRequests_error_resolves (selfc : CtxCfg) (beh : ProviderBehavior)
    (prov : Nat) (reqs : List RiskRequest) (w : World) (e : Nat)
    (h : beh prov reqs = Except.error e) :
    (runRequests selfc beh prov reqs w).1.pendingOf selfc.cid = [] ∧
    ∀ kv ∈ w.pendingOf selfc.cid,
      (runRequests selfc beh prov reqs w).1.futResult kv.2 = some (RVal.exn e) := by
  obtain ⟨h1, h2, h3⟩ :=
    processItems_exn_all selfc.useCache selfc.cid e (w.pendingOf selfc.cid) w rfl
  have hrr : runRequests selfc beh prov reqs w
      = ((processItems selfc.useCache selfc.cid
          ((w.pendingOf selfc.cid).map (fun kv => (kv.1, RVal.exn e))) w).1, none) := by
    simp only [runRequests, h]
    rcases hres : processItems selfc.useCache selfc.cid
        ((w.pendingOf selfc.cid).map (fun kv => (kv.1, RVal.exn e))) w with ⟨w1, err⟩
    rw [hres] at h1
    simp at h1
    subst h1
    simp [processSets, hres]
  rw [hrr]
  refine ⟨h2, ?_⟩
  intro kv hkv
  apply h3
  right
  exact List.mem_map.mpr ⟨kv, hkv, rfl⟩

/-! Concrete fixtures used by the counterexamples and witnesses. -/

/-- Snapshot market used by the concrete scenarios. -/
def mkt0 : Market := .close 0

/-- Instrument priced by provider 0. -/
def instA : Priceable := ⟨0, 0, 1⟩

/-- Instrument priced by provider 1. -/
def instB : Priceable := ⟨1, 1, 1⟩

/-- Synchronous, non-async, non-batch, non-caching context with id 0. -/
def ctxMain : CtxCfg := ⟨0, 100, mkt0, none, false, false, false, false⟩

/-- A second context, same configuration but id 1 and another date. -/
def ctxOther : CtxCfg := ⟨1, 200, mkt0, none, false, false, false, false⟩

/-- Risk key produced by ctxMain for measure 5 on provider 0. -/
def rkMainA : RiskKey := riskKeyOf ctxMain [] 5 0

/-- Risk key produced by ctxMain for measure 5 on provider 1. -/
def rkMainB : RiskKey := riskKeyOf ctxMain [] 5 1

/-- World in which ctxMain has two pending entries, future 0 destined
for provider 0 and future 1 destined for provider 1. -/
def wTwoProviders : World :=
  ⟨[], [], [(0, [((rkMainA, instA), 0), ((rkMainB, instB), 1)])],
   [(0, none), (1, none)], 2, []⟩

/-- Provider behaviour: provider 0 raises exception 99, provider 1
returns the correct value frame 5 for its position. -/
def behSplit : ProviderBehavior := fun prov _ =>
  if prov = 0 then .error 99 else .ok [[((rkMainB, instB), .frame 5)]]

/-- Provider behaviour that always raises exception 99. -/
def behErr : ProviderBehavior := fun _ _ => .error 99

/-- Claim C2, counterexample.  One flush, two providers: provider 0
raises while provider 1 succeeds with the value frame 5 for its pending
position.  Under the serialization in which provider 0's worker runs
first (the insertion order taken by privCalcSeq), the except branch of
run_requests maps every key of self.__pending — including the entry
destined for provider 1 — to the exception, so future 1 is resolved
with exception 99 rather than with provider 1's value, and provider 1's
own finally block then fails with a KeyError on the already-popped key. -/
theorem C2_cex :
    rkMainA.provider = 0 ∧ rkMainB.provider = 1 ∧
    (privCalcSeq ctxMain behSplit wTwoProviders).1.futResult 1 = some (RVal.exn 99) ∧
    (privCalcSeq ctxMain behSplit wTwoProviders).1.futResult 1 ≠ some (RVal.frame 5) ∧
    (privCalcSeq ctxMain behSplit wTwoProviders).2 = [PyErr.keyError] := by
  decide

/-- Claim C2 (amended): when a provider's dispatch raises, the except
branch of run_requests resolves every future still pending in the
flushing context at that moment — whatever provider its key was
destined for — with that exception, and empties the pending map; no
such future is left unresolved, but a future destined for a provider
that has not yet delivered its results receives the failing provider's
exception rather than its own provider's value. -/
theorem C2_provider_error_resolves_all (selfc : CtxCfg) (beh : ProviderBehavior)
    (prov : Nat) (reqs : List RiskRequest) (w : World) (e : Nat)
    (h : beh prov reqs = Except.error e) :
    (runRequests selfc beh prov reqs w).1.pendingOf selfc.cid = [] ∧
    ∀ kv ∈ w.pendingOf selfc.cid,
      (runRequests selfc beh prov reqs w).1.futResult kv.2 = some (RVal.exn e) :=
  runRequests_error_resolves selfc beh prov reqs w e h

/-- Witness for C2: the amended theorem applied to a concrete world with
two pending entries and a provider call that raises exception 99. -/
theorem C2_witness :
    (runRequests ctxMain behErr 0 [] wTwoProviders).1.pendingOf ctxMain.cid = [] ∧
    (runRequests ctxMain behErr 0 [] wTwoProviders).1.futResult 1 = some (RVal.exn 99) := by
  have h := C2_provider_error_resolves_all ctxMain behErr 0 [] wTwoProviders 99 rfl
  exact ⟨h.1, h.2 ((rkMainB, instB), 1) (by decide)⟩

/-- Claim C1, counterexample.  _on_exit with a propagating exception
re-raises it immediately and performs no flush: the world (pending map
included) is returned untouched and the pending futures stay
unresolved, whereas the same exit without an exception does flush and
drain the pending map. -/
theorem C1_cex :
    onExit ctxMain behErr (some 7) wTwoProviders = (wTwoProviders, some 7, []) ∧
    wTwoProviders.pendingOf ctxMain.cid ≠ [] ∧
    wTwoProviders.futResult 0 = none ∧
    (onExit ctxMain behErr none wTwoProviders).1.pendingOf ctxMain.cid = [] := by
  decide

/-- Claim C1 (amended): when a PricingContext scope exits while an
exception is propagating, the pending-request flush is NOT performed:
_on_exit re-raises the original exception immediately, leaving the
pending map and its futures exactly as they were; the flush-on-exit
runs only when no exception is propagating. -/
theorem C1_exit_skips_flush (selfc : CtxCfg) (beh : ProviderBehavior) (e : Nat)
    (w : World) : onExit selfc beh (some e) w = (w, some e, []) := rfl

/-- Claim C4: PricingCache.clear assigns a fresh WeakKeyDictionary to a
local variable __cache instead of the class attribute, so it discards
nothing: for every cache state clear is the identity, and concretely a
get after put-then-clear still returns the stored result. -/
theorem C4_clear_bug :
    (∀ c : Cache, PricingCache.clear c = c) ∧
    PricingCache.get
      (PricingCache.clear (PricingCache.put [] rkMainA instA (RVal.frame 7)))
      rkMainA instA = some (RVal.frame 7) :=
  ⟨fun _ => rfl, by decide⟩

/-- Claim C8, counterexample.  put with an ErrorValue is a no-op, so
when the cache already holds an earlier successful result for the same
(risk key, priceable) pair, get after the error put returns that stale
value — not absent as the claim states. -/
theorem C8_cex :
    (RVal.err 0).isErrorValue = true ∧
    PricingCache.get
      (PricingCache.put (PricingCache.put [] rkMainA instA (RVal.frame 1))
        rkMainA instA (RVal.err 0))
      rkMainA instA = some (RVal.frame 1) := by
  decide

/-- Claim C8 (amended): put with an error value, or with a risk key
whose market is live, leaves the cache entirely unchanged — the result
is never stored, so get after such a put returns exactly what it
returned before the put (absent whenever the pair had not previously
been stored). -/
theorem C8_put_error_or_live_noop (c : Cache) (rk : RiskKey) (p : Priceable) (r : RVal)
    (h : r.isErrorValue = true ∨ rk.market.isLive = true) :
    PricingCache.put c rk p r = c := by
  unfold PricingCache.put
  rcases h with h | h <;> simp [h]

/-- Witness for C8: the amended theorem applied to an error value put
into the empty cache. -/
theorem C8_witness : PricingCache.put [] rkMainA instA (RVal.err 3) = [] :=
  C8_put_error_or_live_noop [] rkMainA instA (RVal.err 3) (Or.inl rfl)

/-- The finally block of run_requests only resolves futures whose ids
sit in the flushing context's pending map: a future id absent from that
map keeps its state, the map never acquires it, and the pending maps of
all other contexts are untouched. -/
theorem processItems_fid_free (useCache : Bool) (cid : Nat) (fid : Nat) :
    ∀ (items : ResultSet) (w : World), (∀ kv ∈ w.pendingOf cid, kv.2 ≠ fid) →
    (processItems useCache cid items w).1.futResult fid = w.futResult fid ∧
    (∀ kv ∈ (processItems useCache cid items w).1.pendingOf cid, kv.2 ≠ fid) ∧
    (∀ cid2, cid2 ≠ cid →
      (processItems useCache cid items w).1.pendingOf cid2 = w.pendingOf cid2) := by
  intro items
  induction items with
  | nil =>
      intro w hw
      exact ⟨rfl, hw, fun _ _ => rfl⟩
  | cons item rest ih =>
      obtain ⟨kp, v⟩ := item
      intro w hw
      have hpend1 : ∀ cid2, (if useCache then
          { w with cache := PricingCache.put w.cache kp.1 kp.2 v }
          else w).pendingOf cid2 = w.pendingOf cid2 := by
        intro cid2; cases useCache <;> rfl
      have hfut1 : (if useCache then
          { w with cache := PricingCache.put w.cache kp.1 kp.2 v }
          else w).futResult fid = w.futResult fid := by
        cases useCache <;> rfl
      rcases hpop : apop ((if useCache then
          { w with cache := PricingCache.put w.cache kp.1 kp.2 v }
          else w).pendingOf cid) kp with _ | ⟨fid2, pend2⟩
      · have hstep : processItems useCache cid ((kp, v) :: rest) w
            = ((if useCache then
                { w with cache := PricingCache.put w.cache kp.1 kp.2 v }
                else w), some .keyError) := by
          simp only [processItems]
          rw [hpop]
        rw [hstep]
        refine ⟨hfut1, ?_, fun cid2 _ => hpend1 cid2⟩
        intro kv hkv
        rw [hpend1 cid] at hkv
        exact hw kv hkv
      · have hmem : (kp, fid2) ∈ w.pendingOf cid := by
          have := apop_mem _ _ _ _ hpop
          rw [hpend1 cid] at this
          exact this
        have hfid2 : fid2 ≠ fid := hw (kp, fid2) hmem
        have hstep : processItems useCache cid ((kp, v) :: rest) w
            = processItems useCache cid rest
              (((if useCache then
                  { w with cache := PricingCache.put w.cache kp.1 kp.2 v }
                  else w).setPending cid pend2).setResult fid2 v) := by
          simp only [processItems]
          rw [hpop]
        have hsub : ∀ x ∈ pend2, x ∈ w.pendingOf cid := by
          intro x hx
          have := apop_subset _ _ _ _ hpop x hx
          rw [hpend1 cid] at this
          exact this
        have hw2 : ∀ kv ∈ (((if useCache then
            { w with cache := PricingCache.put w.cache kp.1 kp.2 v }
            else w).setPending cid pend2).setResult fid2 v).pendingOf cid, kv.2 ≠ fid := by
          intro kv hkv
          rw [show (((if useCache then
              { w with cache := PricingCache.put w.cache kp.1 kp.2 v }
              else w).setPending cid pend2).setResult fid2 v).pendingOf cid = pend2 from
            pendingOf_setPending_self _ cid pend2] at hkv
          exact hw kv (hsub kv hkv)
        obtain ⟨ih1, ih2, ih3⟩ := ih _ hw2
        rw [hstep]
        refine ⟨?_, ih2, ?_⟩
        · rw [ih1]
          rw [show (((if useCache then
              { w with cache := PricingCache.put w.cache kp.1 kp.2 v }
              else w).setPending cid pend2).setResult fid2 v).futResult fid
              = ((if useCache then
              { w with cache := PricingCache.put w.cache kp.1 kp.2 v }
              else w).setPending cid pend2).futResult fid from
            futResult_setResult_ne _ _ _ _ hfid2]
          exact hfut1
        · intro cid2 hcid2
          rw [ih3 cid2 hcid2]
          rw [show (((if useCache then
              { w with cache := PricingCache.put w.cache kp.1 kp.2 v }
              else w).setPending cid pend2).setResult fid2 v).pendingOf cid2
              = ((if useCache then
              { w with cache := PricingCache.put w.cache kp.1 kp.2 v }
              else w).pendingOf cid2) from
            pendingOf_setPending_ne _ cid cid2 pend2 (Ne.symm hcid2)] at *
          exact hpend1 cid2

/-- Lifting of processItems_fid_free over the outer result-set loop. -/
theorem processSets_fid_free (useCache : Bool) (cid : Nat) (fid : Nat) :
    ∀ (sets : List ResultSet) (w : World), (∀ kv ∈ w.pendingOf cid, kv.2 ≠ fid) →
    (processSets useCache cid sets w).1.futResult fid = w.futResult fid ∧
    (∀ kv ∈ (processSets useCache cid sets w).1.pendingOf cid, kv.2 ≠ fid) ∧
    (∀ cid2, cid2 ≠ cid →
      (processSets useCache cid sets w).1.pendingOf cid2 = w.pendingOf cid2) := by
  intro sets
  induction sets with
  | nil =>
      intro w hw
      exact ⟨rfl, hw, fun _ _ => rfl⟩
  | cons s rest ih =>
      intro w hw
      obtain ⟨h1, h2, h3⟩ := processItems_fid_free useCache cid fid s w hw
      rcases hres : processItems useCache cid s w with ⟨w1, err⟩
      rw [hres] at h1 h2 h3
      cases err with
      | none =>
          obtain ⟨ih1, ih2, ih3⟩ := ih w1 h2
          have hstep : processSets useCache cid (s :: rest) w
              = processSets useCache cid rest w1 := by
            simp [processSets, hres]
          rw [hstep]
          refine ⟨ih1.trans h1, ih2, ?_⟩
          intro cid2 hcid2
          exact (ih3 cid2 hcid2).trans (h3 cid2 hcid2)
      | some e =>
          have hstep : processSets useCache cid (s :: rest) w = (w1, some e) := by
            simp [processSets, hres]
          rw [hstep]
          exact ⟨h1, h2, h3⟩

/-- Lifting to run_requests: both the success branch and the exception
branch only touch futures and pending entries of the flushing context. -/
theorem runRequests_fid_free (selfc : CtxCfg) (beh : ProviderBehavior) (prov : Nat)
    (reqs : List RiskRequest) (fid : Nat) (w : World)
    (hw : ∀ kv ∈ w.pendingOf selfc.cid, kv.2 ≠ fid) :
    (runRequests selfc beh prov reqs w).1.futResult fid = w.futResult fid ∧
    (∀ kv ∈ (runRequests selfc beh prov reqs w).1.pendingOf selfc.cid, kv.2 ≠ fid) ∧
    (∀ cid2, cid2 ≠ selfc.cid →
      (runRequests selfc beh prov reqs w).1.pendingOf cid2 = w.pendingOf cid2) := by
  unfold runRequests
  rcases beh prov reqs with e | rs
  · exact processSets_fid_free selfc.useCache selfc.cid fid _ w hw
  · exact processSets_fid_free selfc.useCache selfc.cid fid _ w hw

/-- Lifting over the whole dispatch step of a flush wave. -/
theorem dispatchWave_fid_free (selfc : CtxCfg) (beh : ProviderBehavior)
    (rbp : List (Nat × List RiskRequest)) (fid : Nat) :
    ∀ (order : List Nat) (w : World), (∀ kv ∈ w.pendingOf selfc.cid, kv.2 ≠ fid) →
    (dispatchWave selfc beh rbp order w).1.futResult fid = w.futResult fid ∧
    (∀ kv ∈ (dispatchWave selfc beh rbp order w).1.pendingOf selfc.cid, kv.2 ≠ fid) ∧
    (∀ cid2, cid2 ≠ selfc.cid →
      (dispatchWave selfc beh rbp order w).1.pendingOf cid2 = w.pendingOf cid2) := by
  intro order
  induction order with
  | nil =>
      intro w hw
      exact ⟨rfl, hw, fun _ _ => rfl⟩
  | cons prov rest ih =>
      intro w hw
      rcases hlk : alookup rbp prov with _ | reqs
      · have hstep : dispatchWave selfc beh rbp (prov :: rest) w
            = dispatchWave selfc beh rbp rest w := by
          simp [dispatchWave, hlk]
        rw [hstep]
        exact ih w hw
      · obtain ⟨h1, h2, h3⟩ := runRequests_fid_free selfc beh prov reqs fid w hw
        rcases hres : runRequests selfc beh prov reqs w with ⟨w2, err⟩
        rw [hres] at h1 h2 h3
        obtain ⟨ih1, ih2, ih3⟩ := ih w2 h2
        cases err with
        | none =>
            have hstep : dispatchWave selfc beh rbp (prov :: rest) w
                = dispatchWave selfc beh rbp rest w2 := by
              simp [dispatchWave, hlk, hres]
            rw [hstep]
            refine ⟨ih1.trans h1, ih2, ?_⟩
            intro cid2 hcid2
            exact (ih3 cid2 hcid2).trans (h3 cid2 hcid2)
        | some e =>
            have hstep : (dispatchWave selfc beh rbp (prov :: rest) w).1
                = (dispatchWave selfc beh rbp rest w2).1 := by
              simp only [dispatchWave, hlk, hres]
            rw [hstep]
            refine ⟨ih1.trans h1, ih2, ?_⟩
            intro cid2 hcid2
            exact (ih3 cid2 hcid2).trans (h3 cid2 hcid2)

/-- Evaluation of the locked section of calc (lines 301-312) when the
pair is not already pending and the cache does not serve it: a fresh
future is created and registered in the ACTIVE context's pending map
under the risk key built from the CALLING context's configuration. -/
theorem calcRegister_fresh (selfc : CtxCfg) (p : Priceable) (m : Nat) (w : World)
    (hnp : alookup (w.pendingOf (w.activeContext selfc).cid)
      (riskKeyOf selfc w.scenarioPath m p.provider, p) = none)
    (hnc : selfc.useCache = true →
      PricingCache.get w.cache (riskKeyOf selfc w.scenarioPath m p.provider) p = none) :
    calcRegister selfc p m w
      = (w.nextFut,
         { w with
             futures := aset w.futures w.nextFut none
             nextFut := w.nextFut + 1
             pendings := aset w.pendings (w.activeContext selfc).cid
               (aset (w.pendingOf (w.activeContext selfc).cid)
                 (riskKeyOf selfc w.scenarioPath m p.provider, p) w.nextFut) }) := by
  simp only [calcRegister]
  rw [hnp]
  simp only [World.newFuture]
  cases hu : selfc.useCache
  · simp only [hu, Bool.false_eq_true, if_false]
    rfl
  · simp only [hu, if_true]
    have hnc2 : PricingCache.get
        ({ w with
            futures := aset w.futures w.nextFut none
            nextFut := w.nextFut + 1 } : World).cache
        (riskKeyOf selfc w.scenarioPath m p.provider) p = none := hnc hu
    rw [hnc2]
    rfl

/-- The fresh future returned by the locked section is unresolved. -/
theorem calcRegister_fresh_fut (selfc : CtxCfg) (p : Priceable) (m : Nat) (w : World)
    (hnp : alookup (w.pendingOf (w.activeContext selfc).cid)
      (riskKeyOf selfc w.scenarioPath m p.provider, p) = none)
    (hnc : selfc.useCache = true →
      PricingCache.get w.cache (riskKeyOf selfc w.scenarioPath m p.provider) p = none) :
    (calcRegister selfc p m w).2.futResult w.nextFut = none := by
  rw [calcRegister_fresh selfc p m w hnp hnc]
  simp [World.futResult, alookup_aset_self]

/-- The fresh future is registered in the active context's pending map. -/
theorem calcRegister_fresh_pend (selfc : CtxCfg) (p : Priceable) (m : Nat) (w : World)
    (hnp : alookup (w.pendingOf (w.activeContext selfc).cid)
      (riskKeyOf selfc w.scenarioPath m p.provider, p) = none)
    (hnc : selfc.useCache = true →
      PricingCache.get w.cache (riskKeyOf selfc w.scenarioPath m p.provider) p = none) :
    alookup ((calcRegister selfc p m w).2.pendingOf (w.activeContext selfc).cid)
      (riskKeyOf selfc w.scenarioPath m p.provider, p) = some w.nextFut := by
  rw [calcRegister_fresh selfc p m w hnp hnc]
  simp only [World.pendingOf, alookup_aset_self, Option.getD_some]

/-- The locked section leaves the pending maps of all other contexts
unchanged. -/
theorem calcRegister_fresh_pend_other (selfc : CtxCfg) (p : Priceable) (m : Nat)
    (w : World) (cid2 : Nat) (hcid : (w.activeContext selfc).cid ≠ cid2)
    (hnp : alookup (w.pendingOf (w.activeContext selfc).cid)
      (riskKeyOf selfc w.scenarioPath m p.provider, p) = none)
    (hnc : selfc.useCache = true →
      PricingCache.get w.cache (riskKeyOf selfc w.scenarioPath m p.provider) p = none) :
    (calcRegister selfc p m w).2.pendingOf cid2 = w.pendingOf cid2 := by
  rw [calcRegister_fresh selfc p m w hnp hnc]
  simp only [World.pendingOf, alookup_aset_ne _ _ _ _ hcid]

/-- Claim C5 (amended): when the calling context is neither entered nor
async, calc does trigger a synchronous flush before returning — but the
flush is self.__calc(), a flush of the CALLING context's own pending
map, while the registration went to the active context's map.  When a
different context is the active one, that flush cannot find the new
entry: calc returns a future that is still unresolved, and the entry is
still pending in the active context's map. -/
theorem C5_inactive_context_unresolved (selfc d : CtxCfg) (beh : ProviderBehavior)
    (p : Priceable) (m : Nat) (w : World)
    (hne : w.isEntered selfc = false)
    (hna : selfc.isAsync = false)
    (hact : w.activeContext selfc = d)
    (hcid : d.cid ≠ selfc.cid)
    (hnp : alookup (w.pendingOf d.cid) (riskKeyOf selfc w.scenarioPath m p.provider, p)
      = none)
    (hnc : selfc.useCache = true →
      PricingCache.get w.cache (riskKeyOf selfc w.scenarioPath m p.provider) p = none)
    (hfresh : ∀ kv ∈ w.pendingOf selfc.cid, kv.2 ≠ w.nextFut) :
    (calcFn selfc beh p m w).1 = w.nextFut ∧
    (calcFn selfc beh p m w).2.1.futResult w.nextFut = none ∧
    alookup ((calcFn selfc beh p m w).2.1.pendingOf d.cid)
      (riskKeyOf selfc w.scenarioPath m p.provider, p) = some w.nextFut := by
  have hnp2 : alookup (w.pendingOf (w.activeContext selfc).cid)
      (riskKeyOf selfc w.scenarioPath m p.provider, p) = none := by
    rw [hact]; exact hnp
  have hreg := calcRegister_fresh selfc p m w hnp2 hnc
  rcases hW : calcRegister selfc p m w with ⟨fid, w2⟩
  rw [hW] at hreg
  have hfid : fid = w.nextFut := (Prod.mk.injEq _ _ _ _ |>.mp hreg).1
  have hw2 : w2 = { w with
      futures := aset w.futures w.nextFut none
      nextFut := w.nextFut + 1
      pendings := aset w.pendings (w.activeContext selfc).cid
        (aset (w.pendingOf (w.activeContext selfc).cid)
          (riskKeyOf selfc w.scenarioPath m p.provider, p) w.nextFut) } :=
    (Prod.mk.injEq _ _ _ _ |>.mp hreg).2
  have hent : w2.isEntered selfc = false := by rw [hw2]; exact hne
  have hfut : w2.futResult w.nextFut = none := by
    have h := calcRegister_fresh_fut selfc p m w hnp2 hnc
    rw [hW] at h; exact h
  have hpend_d : alookup (w2.pendingOf d.cid)
      (riskKeyOf selfc w.scenarioPath m p.provider, p) = some w.nextFut := by
    have h := calcRegister_fresh_pend selfc p m w hnp2 hnc
    rw [hW, hact] at h; exact h
  have hpend_self : w2.pendingOf selfc.cid = w.pendingOf selfc.cid := by
    have h := calcRegister_fresh_pend_other selfc p m w selfc.cid
      (by rw [hact]; exact hcid) hnp2 hnc
    rw [hW] at h; exact h
  have hrun : calcFn selfc beh p m w = (fid, privCalcSeq selfc beh w2) := by
    simp only [calcFn]
    rw [hW]
    rw [hent, hna]
    rfl
  obtain ⟨hf1, hf2, hf3⟩ := dispatchWave_fid_free selfc beh
    (providerRequests selfc w2) w.nextFut
    ((providerRequests selfc w2).map (fun pv => pv.1)) w2
    (by rw [hpend_self]; exact hfresh)
  rw [hrun]
  refine ⟨hfid, ?_, ?_⟩
  · show (privCalcSeq selfc beh w2).1.futResult w.nextFut = none
    unfold privCalcSeq privCalc
    rw [hf1]
    exact hfut
  · show alookup ((privCalcSeq selfc beh w2).1.pendingOf d.cid) _ = some w.nextFut
    unfold privCalcSeq privCalc
    rw [hf3 d.cid hcid]
    exact hpend_d

/-- World in which ctxOther is entered (innermost on the stack) and no
work is pending anywhere. -/
def wEntered : World := ⟨[], [ctxOther], [], [], 0, []⟩

/-- Claim C5, counterexample.  ctxMain is neither entered nor async and
ctxOther is the active (innermost entered) context.  calc on ctxMain
registers the future in ctxOther's pending map but flushes ctxMain's
own (empty) map, so the synchronous flush resolves nothing: the
returned future is still unresolved when calc returns, contradicting
the claim that it is already resolved. -/
theorem C5_cex :
    wEntered.isEntered ctxMain = false ∧ ctxMain.isAsync = false ∧
    wEntered.activeContext ctxMain = ctxOther ∧
    (calcFn ctxMain behErr instA 5 wEntered).2.1.futResult
      (calcFn ctxMain behErr instA 5 wEntered).1 = none ∧
    alookup ((calcFn ctxMain behErr instA 5 wEntered).2.1.pendingOf ctxOther.cid)
      (riskKeyOf ctxMain [] 5 0, instA)
      = some (calcFn ctxMain behErr instA 5 wEntered).1 := by
  decide

/-- Witness for C5: the amended theorem applied to the concrete world
in which ctxOther is entered and ctxMain performs the calc. -/
theorem C5_witness :
    (calcFn ctxMain behErr instA 5 wEntered).1 = 0 ∧
    (calcFn ctxMain behErr instA 5 wEntered).2.1.futResult 0 = none := by
  have h := C5_inactive_context_unresolved ctxMain ctxOther behErr instA 5 wEntered
    (by decide) (by decide) (by decide) (by decide) (by decide) (by intro h; decide)
    (by intro kv hkv; simp [wEntered, World.pendingOf, alookup] at hkv)
  exact ⟨h.1, h.2.1⟩

/-- The finally block leaves an entry alone when no processed result
names its key: its future keeps its state and it stays pending, as long
as its future id is not shared by an entry under another key. -/
theorem processItems_untouched (useCache : Bool) (cid : Nat) (k : RiskKey × Priceable)
    (fid : Nat) :
    ∀ (items : ResultSet) (w : World),
    alookup (w.pendingOf cid) k = some fid →
    (∀ item ∈ items, item.1 ≠ k) →
    (∀ kv ∈ w.pendingOf cid, kv.2 = fid → kv.1 = k) →
    (processItems useCache cid items w).1.futResult fid = w.futResult fid ∧
    alookup ((processItems useCache cid items w).1.pendingOf cid) k = some fid ∧
    (∀ kv ∈ (processItems useCache cid items w).1.pendingOf cid, kv.2 = fid → kv.1 = k) := by
  intro items
  induction items with
  | nil =>
      intro w hpend _ huniq
      exact ⟨rfl, hpend, huniq⟩
  | cons item rest ih =>
      obtain ⟨kp, v⟩ := item
      intro w hpend hnot huniq
      have hkpk : kp ≠ k := hnot (kp, v) (List.mem_cons_self _ _)
      have hpend1 : ∀ cid2, (if useCache then
          { w with cache := PricingCache.put w.cache kp.1 kp.2 v }
          else w).pendingOf cid2 = w.pendingOf cid2 := by
        intro cid2; cases useCache <;> rfl
      have hfut1 : (if useCache then
          { w with cache := PricingCache.put w.cache kp.1 kp.2 v }
          else w).futResult fid = w.futResult fid := by
        cases useCache <;> rfl
      rcases hpop : apop ((if useCache then
          { w with cache := PricingCache.put w.cache kp.1 kp.2 v }
          else w).pendingOf cid) kp with _ | ⟨fid2, pend2⟩
      · have hstep : processItems useCache cid ((kp, v) :: rest) w
            = ((if useCache then
                { w with cache := PricingCache.put w.cache kp.1 kp.2 v }
                else w), some .keyError) := by
          simp only [processItems]
          rw [hpop]
        rw [hstep]
        refine ⟨hfut1, ?_, ?_⟩
        · rw [hpend1 cid]; exact hpend
        · intro kv hkv
          rw [hpend1 cid] at hkv
          exact huniq kv hkv
      · have hmem : (kp, fid2) ∈ w.pendingOf cid := by
          have := apop_mem _ _ _ _ hpop
          rw [hpend1 cid] at this
          exact this
        have hfid2 : fid2 ≠ fid := by
          intro heq
          exact hkpk (huniq (kp, fid2) hmem heq)
        have hpop2 : apop (w.pendingOf cid) kp = some (fid2, pend2) := by
          rw [← hpend1 cid]; exact hpop
        have hstep : processItems useCache cid ((kp, v) :: rest) w
            = processItems useCache cid rest
              (((if useCache then
                  { w with cache := PricingCache.put w.cache kp.1 kp.2 v }
                  else w).setPending cid pend2).setResult fid2 v) := by
          simp only [processItems]
          rw [hpop]
        have hsub : ∀ x ∈ pend2, x ∈ w.pendingOf cid :=
          fun x hx => apop_subset _ _ _ _ hpop2 x hx
        have hpend2 : alookup pend2 k = some fid := by
          rw [apop_ne_alookup _ _ _ _ _ hkpk hpop2]
          exact hpend
        have hpendw2 : (((if useCache then
            { w with cache := PricingCache.put w.cache kp.1 kp.2 v }
            else w).setPending cid pend2).setResult fid2 v).pendingOf cid = pend2 :=
          pendingOf_setPending_self _ cid pend2
        obtain ⟨ih1, ih2, ih3⟩ := ih _ (by rw [hpendw2]; exact hpend2)
          (fun item hi => hnot item (List.mem_cons_of_mem _ hi))
          (by
            intro kv hkv
            rw [hpendw2] at hkv
            exact huniq kv (hsub kv hkv))
        rw [hstep]
        refine ⟨?_, ih2, ih3⟩
        rw [ih1]
        rw [show (((if useCache then
            { w with cache := PricingCache.put w.cache kp.1 kp.2 v }
            else w).setPending cid pend2).setResult fid2 v).futResult fid
            = ((if useCache then
            { w with cache := PricingCache.put w.cache kp.1 kp.2 v }
            else w).setPending cid pend2).futResult fid from
          futResult_setResult_ne _ _ _ _ hfid2]
        exact hfut1

/-- Lifting of processItems_untouched over the outer result-set loop. -/
theorem processSets_untouched (useCache : Bool) (cid : Nat) (k : RiskKey × Priceable)
    (fid : Nat) :
    ∀ (sets : List ResultSet) (w : World),
    alookup (w.pendingOf cid) k = some fid →
    (∀ s ∈ sets, ∀ item ∈ s, item.1 ≠ k) →
    (∀ kv ∈ w.pendingOf cid, kv.2 = fid → kv.1 = k) →
    (processSets useCache cid sets w).1.futResult fid = w.futResult fid ∧
    alookup ((processSets useCache cid sets w).1.pendingOf cid) k = some fid ∧
    (∀ kv ∈ (processSets useCache cid sets w).1.pendingOf cid, kv.2 = fid → kv.1 = k) := by
  intro sets
  induction sets with
  | nil =>
      intro w hpend _ huniq
      exact ⟨rfl, hpend, huniq⟩
  | cons s rest ih =>
      intro w hpend hnot huniq
      obtain ⟨h1, h2, h3⟩ := processItems_untouched useCache cid k fid s w hpend
        (hnot s (List.mem_cons_self _ _)) huniq
      rcases hres : processItems useCache cid s w with ⟨w1, err⟩
      rw [hres] at h1 h2 h3
      cases err with
      | none =>
          obtain ⟨ih1, ih2, ih3⟩ := ih w1 h2
            (fun s2 hs2 => hnot s2 (List.mem_cons_of_mem _ hs2)) h3
          have hstep : processSets useCache cid (s :: rest) w
              = processSets useCache cid rest w1 := by
            simp [processSets, hres]
          rw [hstep]
          exact ⟨ih1.trans h1, ih2, ih3⟩
      | some e =>
          have hstep : processSets useCache cid (s :: rest) w = (w1, some e) := by
            simp [processSets, hres]
          rw [hstep]
          exact ⟨h1, h2, h3⟩

/-- Claim C3 (amended): on the success path a dispatch touches exactly
the entries its result sets name — an entry whose key appears in no
returned result set (in particular one registered after the drain
point, which cannot appear among results built from the drained
requests) keeps its unresolved future and stays pending. -/
theorem C3_post_drain_untouched_on_success (selfc : CtxCfg) (beh : ProviderBehavior)
    (prov : Nat) (reqs : List RiskRequest) (w : World) (sets : List ResultSet)
    (k : RiskKey × Priceable) (fid : Nat)
    (hok : beh prov reqs = Except.ok sets)
    (hpend : alookup (w.pendingOf selfc.cid) k = some fid)
    (hnot : ∀ s ∈ sets, ∀ item ∈ s, item.1 ≠ k)
    (huniq : ∀ kv ∈ w.pendingOf selfc.cid, kv.2 = fid → kv.1 = k) :
    (runRequests selfc beh prov reqs w).1.futResult fid = w.futResult fid ∧
    alookup ((runRequests selfc beh prov reqs w).1.pendingOf selfc.cid) k = some fid := by
  unfold runRequests
  rw [hok]
  have h := processSets_untouched selfc.useCache selfc.cid k fid sets w hpend hnot huniq
  exact ⟨h.1, h.2.1⟩

/-- World in which ctxMain is entered with one pending entry (future 0,
provider 0) — the state at which the flush wave drains and groups. -/
def wC3pre : World := ⟨[], [ctxMain], [(0, [((rkMainA, instA), 0)])], [(0, none)], 1, []⟩

/-- Claim C3, counterexample.  The flush wave's requests are grouped
from wC3pre (the drain point); between the drain and the dispatch a new
entry (future 1) is registered under the lock — legal, since dispatch
runs outside the lock.  The provider then raises, and the except branch
of run_requests resolves the post-drain entry too: future 1 is resolved
with the exception and popped by this same flush wave, contradicting
the claim that an entry registered after the drain point is never
touched by that wave. -/
theorem C3_cex :
    (calcRegister ctxMain instB 6 wC3pre).1 = 1 ∧
    alookup ((calcRegister ctxMain instB 6 wC3pre).2.pendingOf ctxMain.cid)
      (riskKeyOf ctxMain [] 6 1, instB) = some 1 ∧
    (dispatchWave ctxMain behErr (providerRequests ctxMain wC3pre) [0]
      (calcRegister ctxMain instB 6 wC3pre).2).1.futResult 1 = some (RVal.exn 99) ∧
    (dispatchWave ctxMain behErr (providerRequests ctxMain wC3pre) [0]
      (calcRegister ctxMain instB 6 wC3pre).2).1.pendingOf ctxMain.cid = [] := by
  decide

/-- Provider behaviour returning one successful result set that names
only the provider-0 position (rkMainA, instA). -/
def behOkA : ProviderBehavior := fun _ _ => .ok [[((rkMainA, instA), .frame 42)]]

/-- Witness for C3: the amended theorem applied to a dispatch whose
results name only (rkMainA, instA); the other entry (rkMainB, instB),
future 1, is untouched — still unresolved and still pending. -/
theorem C3_witness :
    (runRequests ctxMain behOkA 0 [] wTwoProviders).1.futResult 1 = none ∧
    alookup ((runRequests ctxMain behOkA 0 [] wTwoProviders).1.pendingOf ctxMain.cid)
      (rkMainB, instB) = some 1 := by
  have h := C3_post_drain_untouched_on_success ctxMain behOkA 0 [] wTwoProviders
    [[((rkMainA, instA), RVal.frame 42)]] (rkMainB, instB) 1 rfl (by decide)
    (by decide) (by decide)
  exact ⟨h.1.trans (by decide), h.2⟩

/-- Claim C10: when calc runs on context C while context D is the
active one, the risk key is built entirely from C's own configuration
(C's provider argument, pricing date, market, parameters and the
ambient scenario path) while the resulting future is registered in D's
pending map, and no other context's pending map is touched. -/
theorem C10_cross_context_registration (selfc d : CtxCfg) (p : Priceable) (m : Nat)
    (w : World)
    (hact : w.activeContext selfc = d)
    (hnp : alookup (w.pendingOf d.cid) (riskKeyOf selfc w.scenarioPath m p.provider, p)
      = none)
    (hnc : selfc.useCache = true →
      PricingCache.get w.cache (riskKeyOf selfc w.scenarioPath m p.provider) p = none) :
    (riskKeyOf selfc w.scenarioPath m p.provider).provider = p.provider ∧
    (riskKeyOf selfc w.scenarioPath m p.provider).date = selfc.pricingDate ∧
    (riskKeyOf selfc w.scenarioPath m p.provider).market = selfc.market ∧
    (riskKeyOf selfc w.scenarioPath m p.provider).params = selfc.parameters ∧
    (riskKeyOf selfc w.scenarioPath m p.provider).scenario
      = scenarioOfPath w.scenarioPath ∧
    (riskKeyOf selfc w.scenarioPath m p.provider).riskMeasure = m ∧
    alookup ((calcRegister selfc p m w).2.pendingOf d.cid)
      (riskKeyOf selfc w.scenarioPath m p.provider, p)
      = some (calcRegister selfc p m w).1 ∧
    (∀ cid2, cid2 ≠ d.cid → (calcRegister selfc p m w).2.pendingOf cid2
      = w.pendingOf cid2) := by
  have hnp2 : alookup (w.pendingOf (w.activeContext selfc).cid)
      (riskKeyOf selfc w.scenarioPath m p.provider, p) = none := by
    rw [hact]; exact hnp
  have hfst : (calcRegister selfc p m w).1 = w.nextFut := by
    rw [calcRegister_fresh selfc p m w hnp2 hnc]
  refine ⟨rfl, rfl, rfl, rfl, rfl, rfl, ?_, ?_⟩
  · rw [hfst]
    have h := calcRegister_fresh_pend selfc p m w hnp2 hnc
    rw [hact] at h
    exact h
  · intro cid2 hcid2
    exact calcRegister_fresh_pend_other selfc p m w cid2
      (by rw [hact]; exact Ne.symm hcid2) hnp2 hnc

/-- Witness for C10: calc on ctxMain while ctxOther (a different
context, different date and id) is the active one: the key carries
ctxMain's date and the entry lands in ctxOther's pending map. -/
theorem C10_witness :
    (riskKeyOf ctxMain wEntered.scenarioPath 5 instA.provider).date = ctxMain.pricingDate ∧
    ctxMain.pricingDate ≠ ctxOther.pricingDate ∧ ctxMain.cid ≠ ctxOther.cid ∧
    alookup ((calcRegister ctxMain instA 5 wEntered).2.pendingOf ctxOther.cid)
      (riskKeyOf ctxMain wEntered.scenarioPath 5 instA.provider, instA)
      = some (calcRegister ctxMain instA 5 wEntered).1 := by
  have h := C10_cross_context_registration ctxMain ctxOther instA 5 wEntered
    (by decide) (by decide) (by intro hh; decide)
  exact ⟨h.2.1, by decide, by decide, h.2.2.2.2.2.2.1⟩

/-- Evaluation of the locked section of calc when the pair is not
pending, caching is enabled and the cache holds a value: the fresh
future is immediately resolved with the cached value and nothing is
registered. -/
theorem calcRegister_hit (selfc : CtxCfg) (p : Priceable) (m : Nat) (w : World)
    (v : RVal)
    (hnp : alookup (w.pendingOf (w.activeContext selfc).cid)
      (riskKeyOf selfc w.scenarioPath m p.provider, p) = none)
    (hu : selfc.useCache = true)
    (hget : PricingCache.get w.cache (riskKeyOf selfc w.scenarioPath m p.provider) p
      = some v) :
    calcRegister selfc p m w
      = (w.nextFut,
         { w with
             futures := aset (aset w.futures w.nextFut none) w.nextFut (some v)
             nextFut := w.nextFut + 1 }) := by
  simp only [calcRegister]
  rw [hnp]
  simp only [World.newFuture, hu, if_true]
  have hget2 : PricingCache.get
      ({ w with
          futures := aset w.futures w.nextFut none
          nextFut := w.nextFut + 1 } : World).cache
      (riskKeyOf selfc w.scenarioPath m p.provider) p = some v := hget
  rw [hget2]
  rfl

/-- Claim C9: with caching enabled and a cache hit for the identical
(risk key, priceable) pair, calc returns an already-completed future
holding the cached value and registers nothing (so the pending maps —
and hence any subsequent dispatch — are exactly as if the call had not
happened); with caching disabled the cache is not consulted and a
fresh, unresolved pending future is registered. -/
theorem C9_cache_hit_and_disabled (selfc : CtxCfg) (p : Priceable) (m : Nat) (w : World)
    (hnp : alookup (w.pendingOf (w.activeContext selfc).cid)
      (riskKeyOf selfc w.scenarioPath m p.provider, p) = none) :
    (∀ v, selfc.useCache = true →
      PricingCache.get w.cache (riskKeyOf selfc w.scenarioPath m p.provider) p = some v →
      (calcRegister selfc p m w).2.futResult (calcRegister selfc p m w).1 = some v ∧
      (calcRegister selfc p m w).2.pendings = w.pendings) ∧
    (selfc.useCache = false →
      (calcRegister selfc p m w).2.futResult (calcRegister selfc p m w).1 = none ∧
      alookup ((calcRegister selfc p m w).2.pendingOf (w.activeContext selfc).cid)
        (riskKeyOf selfc w.scenarioPath m p.provider, p)
        = some (calcRegister selfc p m w).1) := by
  constructor
  · intro v hu hget
    rw [calcRegister_hit selfc p m w v hnp hu hget]
    constructor
    · show World.futResult _ w.nextFut = some v
      simp [World.futResult, alookup_aset_self]
    · rfl
  · intro hb
    have hnc : selfc.useCache = true →
        PricingCache.get w.cache (riskKeyOf selfc w.scenarioPath m p.provider) p
          = none := by
      intro hcc
      rw [hb] at hcc
      cases hcc
    have hfst : (calcRegister selfc p m w).1 = w.nextFut := by
      rw [calcRegister_fresh selfc p m w hnp hnc]
    rw [hfst]
    exact ⟨calcRegister_fresh_fut selfc p m w hnp hnc,
           calcRegister_fresh_pend selfc p m w hnp hnc⟩

/-- Caching-enabled variant of ctxMain (use_cache=True), same identity
space: id 4. -/
def ctxCache : CtxCfg := ⟨4, 100, mkt0, none, false, false, true, false⟩

/-- World with an empty pending map and a cache holding frame 7 for
ctxCache's risk key on instA. -/
def wCacheHit : World :=
  ⟨[], [], [], [], 0, [(instA, [(riskKeyOf ctxCache [] 5 0, .frame 7)])]⟩

/-- Witness for C9: a concrete cache hit returns a completed future
with the cached value and leaves the pending maps untouched, and the
same call on the non-caching ctxMain registers a fresh pending future
without consulting the (empty) cache. -/
theorem C9_witness :
    ((calcRegister ctxCache instA 5 wCacheHit).2.futResult
      (calcRegister ctxCache instA 5 wCacheHit).1 = some (RVal.frame 7) ∧
     (calcRegister ctxCache instA 5 wCacheHit).2.pendings = wCacheHit.pendings) ∧
    ((calcRegister ctxMain instA 5 wEntered).2.futResult
      (calcRegister ctxMain instA 5 wEntered).1 = none) := by
  have h1 := (C9_cache_hit_and_disabled ctxCache instA 5 wCacheHit (by decide)).1
    (RVal.frame 7) rfl (by decide)
  have h2 := (C9_cache_hit_and_disabled ctxMain instA 5 wEntered (by decide)).2 rfl
  exact ⟨h1, h2.1⟩

/-- Claim C6: starting from an empty pending map (no flush yet) and no
cache hit, two calc calls with the same priceable and the same
resulting risk key return the same future (the second call changes
nothing at all), and the flushing context's grouped requests then
consist of exactly one request for that provider, holding exactly one
position for the priceable, the single risk measure, and the single
(date, market) as-of pair — one outbound unit of work. -/
theorem C6_dedup_single_request (selfc : CtxCfg) (p : Priceable) (m : Nat) (w : World)
    (hemp : w.pendingOf (w.activeContext selfc).cid = [])
    (hnc : selfc.useCache = true →
      PricingCache.get w.cache (riskKeyOf selfc w.scenarioPath m p.provider) p = none) :
    (calcRegister selfc p m (calcRegister selfc p m w).2).1
      = (calcRegister selfc p m w).1 ∧
    (calcRegister selfc p m (calcRegister selfc p m w).2).2
      = (calcRegister selfc p m w).2 ∧
    providerRequests (w.activeContext selfc) (calcRegister selfc p m w).2
      = [(p.provider,
          [{ positions := [⟨p, p.quantity⟩]
             riskMeasures := [m]
             parameters := (w.activeContext selfc).parameters
             waitForResults := !(w.activeContext selfc).isBatch
             scenario := scenarioOfPath w.scenarioPath
             asOf := [⟨selfc.pricingDate, selfc.market⟩]
             visibleToGs := (w.activeContext selfc).visibleToGs }])] := by
  have hnp : alookup (w.pendingOf (w.activeContext selfc).cid)
      (riskKeyOf selfc w.scenarioPath m p.provider, p) = none := by
    rw [hemp]; rfl
  have hreg := calcRegister_fresh selfc p m w hnp hnc
  rcases hW : calcRegister selfc p m w with ⟨fid, w2⟩
  rw [hW] at hreg
  have hfid : fid = w.nextFut := (Prod.mk.injEq _ _ _ _ |>.mp hreg).1
  have hw2 : w2 = { w with
      futures := aset w.futures w.nextFut none
      nextFut := w.nextFut + 1
      pendings := aset w.pendings (w.activeContext selfc).cid
        (aset (w.pendingOf (w.activeContext selfc).cid)
          (riskKeyOf selfc w.scenarioPath m p.provider, p) w.nextFut) } :=
    (Prod.mk.injEq _ _ _ _ |>.mp hreg).2
  have hpend2 : w2.pendingOf (w.activeContext selfc).cid
      = [((riskKeyOf selfc w.scenarioPath m p.provider, p), w.nextFut)] := by
    rw [hw2]
    simp only [World.pendingOf, alookup_aset_self, Option.getD_some]
    show aset (w.pendingOf (w.activeContext selfc).cid)
      (riskKeyOf selfc w.scenarioPath m p.provider, p) w.nextFut = _
    rw [hemp]
    rfl
  have hlook2 : alookup (w2.pendingOf (w2.activeContext selfc).cid)
      (riskKeyOf selfc w2.scenarioPath m p.provider, p) = some w.nextFut := by
    have hact2 : w2.activeContext selfc = w.activeContext selfc := by rw [hw2]; rfl
    have hsc2 : w2.scenarioPath = w.scenarioPath := by rw [hw2]
    rw [hact2, hsc2, hpend2]
    simp [alookup]
  have hsecond : calcRegister selfc p m w2 = (w.nextFut, w2) := by
    simp only [calcRegister]
    rw [hlook2]
  refine ⟨?_, ?_, ?_⟩
  · show (calcRegister selfc p m w2).1 = fid
    rw [hsecond, hfid]
  · show (calcRegister selfc p m w2).2 = w2
    rw [hsecond]
  · show providerRequests (w.activeContext selfc) w2 = _
    unfold providerRequests
    rw [hpend2]
    rfl

/-- Empty world: nothing entered, nothing pending, no cache. -/
def wEmpty : World := ⟨[], [], [], [], 0, []⟩

/-- Witness for C6: two identical calc registrations on ctxMain (its
own active context) starting from the empty world share future 0, and
the flush would emit exactly one request with one position. -/
theorem C6_witness :
    (calcRegister ctxMain instA 5 (calcRegister ctxMain instA 5 wEmpty).2).1
      = (calcRegister ctxMain instA 5 wEmpty).1 ∧
    ((providerRequests (wEmpty.activeContext ctxMain)
      (calcRegister ctxMain instA 5 wEmpty).2).map
        (fun pv => pv.2.map (fun r => r.positions.length))) = [[1]] := by
  have h := C6_dedup_single_request ctxMain instA 5 wEmpty (by decide)
    (by intro hh; decide)
  refine ⟨h.1, ?_⟩
  rw [h.2.2]
  decide

/-- Boolean sortedness of a list under the relation le (adjacent pairs). -/
def sortedByB {α : Type} (le : α → α → Bool) : List α → Bool
  | [] => true
  | [_] => true
  | a :: b :: t => le a b && sortedByB le (b :: t)

/-- Boolean duplicate-freedom of a list. -/
def nodupB {α : Type} [DecidableEq α] : List α → Bool
  | [] => true
  | a :: t => !(memDec a t) && nodupB t

/-- Order on as-of entries induced by the (date, market) order. -/
def dmLeAsOf (x y : PricingDateAndMarketDataAsOf) : Bool :=
  dmLe (x.pricingDate, x.market) (y.pricingDate, y.market)

/-- Totality of the (date, market) order. -/
theorem dmLe_total (a b : Nat × Market) : dmLe a b = true ∨ dmLe b a = true := by
  unfold dmLe
  by_cases h1 : a.1 = b.1
  · rw [if_pos h1, if_pos h1.symm]
    by_cases h2 : a.2.sortKey.1 = b.2.sortKey.1
    · rw [if_pos h2, if_pos h2.symm]
      rcases Nat.le_total a.2.sortKey.2 b.2.sortKey.2 with h | h
      · left; exact decide_eq_true h
      · right; exact decide_eq_true h
    · rw [if_neg h2, if_neg (Ne.symm h2)]
      rcases Nat.le_total a.2.sortKey.1 b.2.sortKey.1 with h | h
      · left; exact decide_eq_true h
      · right; exact decide_eq_true h
  · rw [if_neg h1, if_neg (Ne.symm h1)]
    rcases Nat.le_total a.1 b.1 with h | h
    · left; exact decide_eq_true h
    · right; exact decide_eq_true h

/-- Inserting into a sorted list keeps it sorted when le is total. -/
theorem sortedByB_insertLe {α : Type} (le : α → α → Bool)
    (htot : ∀ a b, le a b = true ∨ le b a = true) (a : α) :
    ∀ l, sortedByB le l = true → sortedByB le (insertLe le a l) = true := by
  intro l
  induction l with
  | nil => intro _; rfl
  | cons x xs ih =>
      intro hs
      by_cases hax : le a x = true
      · have : insertLe le a (x :: xs) = a :: x :: xs := by simp [insertLe, hax]
        rw [this]
        show (le a x && sortedByB le (x :: xs)) = true
        simp [hax, hs]
      · have hxa : le x a = true := (htot a x).resolve_left hax
        have hins : insertLe le a (x :: xs) = x :: insertLe le a xs := by
          simp [insertLe, hax]
        rw [hins]
        cases xs with
        | nil =>
            show (le x a && sortedByB le [a]) = true
            simp [hxa, sortedByB]
        | cons y ys =>
            have hparts : le x y = true ∧ sortedByB le (y :: ys) = true := by
              have := hs
              simp only [sortedByB, Bool.and_eq_true] at this
              exact this
            have htail := ih hparts.2
            by_cases hay : le a y = true
            · have h2 : insertLe le a (y :: ys) = a :: y :: ys := by
                simp [insertLe, hay]
              rw [h2]
              show (le x a && sortedByB le (a :: y :: ys)) = true
              have : sortedByB le (a :: y :: ys)
                  = (le a y && sortedByB le (y :: ys)) := rfl
              simp [hxa, this, hay, hparts.2]
            · have h2 : insertLe le a (y :: ys) = y :: insertLe le a ys := by
                simp [insertLe, hay]
              rw [h2]
              show (le x y && sortedByB le (y :: insertLe le a ys)) = true
              rw [h2] at htail
              simp [hparts.1, htail]

/-- Python sorted: the insertion sort is sorted when le is total. -/
theorem sortedByB_sortLe {α : Type} (le : α → α → Bool)
    (htot : ∀ a b, le a b = true ∨ le b a = true) :
    ∀ l, sortedByB le (sortLe le l) = true := by
  intro l
  induction l with
  | nil => rfl
  | cons x xs ih => exact sortedByB_insertLe le htot x _ ih

/-- Sortedness survives wrapping the (date, market) pairs into as-of
records, since the as-of order is the pair order on the fields. -/
theorem sortedByB_map_asOf :
    ∀ l : List (Nat × Market), sortedByB dmLe l = true →
    sortedByB dmLeAsOf (l.map (fun dm =>
      (⟨dm.1, dm.2⟩ : PricingDateAndMarketDataAsOf))) = true
  | [], _ => rfl
  | [_], _ => rfl
  | a :: b :: t, h => by
      have hparts : dmLe a b = true ∧ sortedByB dmLe (b :: t) = true := by
        simp only [sortedByB, Bool.and_eq_true] at h
        exact h
      have htail := sortedByB_map_asOf (b :: t) hparts.2
      simp only [List.map_cons] at htail ⊢
      show (dmLeAsOf ⟨a.1, a.2⟩ ⟨b.1, b.2⟩
        && sortedByB dmLeAsOf
          ((⟨b.1, b.2⟩ : PricingDateAndMarketDataAsOf) :: t.map (fun dm => ⟨dm.1, dm.2⟩)))
        = true
      have hrel : dmLeAsOf ⟨a.1, a.2⟩ ⟨b.1, b.2⟩ = dmLe a b := rfl
      simp [hrel, hparts.1, htail]

/-- Membership distributes over append. -/
theorem memDec_append {α : Type} [DecidableEq α] (a : α) :
    ∀ l1 l2 : List α, memDec a (l1 ++ l2) = (memDec a l1 || memDec a l2) := by
  intro l1 l2
  induction l1 with
  | nil => rfl
  | cons x xs ih =>
      by_cases hx : x = a
      · simp [memDec, hx]
      · simp [memDec, hx, ih]

/-- Appending a genuinely new element preserves duplicate-freedom. -/
theorem nodupB_append_new {α : Type} [DecidableEq α] (a : α) :
    ∀ l : List α, nodupB l = true → memDec a l = false → nodupB (l ++ [a]) = true := by
  intro l
  induction l with
  | nil => intro _ _; rfl
  | cons x xs ih =>
      intro hn hm
      have hxa : ¬x = a := by
        intro hxa
        rw [show memDec a (x :: xs) = true from by simp [memDec, hxa]] at hm
        cases hm
      have hn2 : memDec x xs = false ∧ nodupB xs = true := by
        simp only [nodupB, Bool.and_eq_true, Bool.not_eq_true'] at hn
        exact hn
      have hm2 : memDec a xs = false := by
        simp only [memDec, hxa, if_false] at hm
        exact hm
      show (!(memDec x (xs ++ [a])) && nodupB (xs ++ [a])) = true
      rw [memDec_append, hn2.1, ih hn2.2 hm2]
      have : memDec x [a] = false := by
        simp only [memDec]
        rw [if_neg (fun h => hxa h.symm)]
      rw [this]
      rfl

/-- Keys of an aset: unchanged if the key was present, else appended. -/
theorem aset_keys {α β : Type} [DecidableEq α] (a : α) (b : β) :
    ∀ l : List (α × β),
    (aset l a b).map Prod.fst
      = if memDec a (l.map Prod.fst) then l.map Prod.fst
        else l.map Prod.fst ++ [a] := by
  intro l
  induction l with
  | nil => rfl
  | cons kv rest ih =>
      obtain ⟨k, v⟩ := kv
      by_cases hk : k = a
      · simp [aset, hk, memDec]
      · simp only [aset, if_neg hk, List.map_cons]
        rw [ih]
        by_cases hmem : memDec a (rest.map Prod.fst) = true <;>
          simp [hmem, memDec, hk]

/-- aset preserves duplicate-freedom of the key list. -/
theorem nodupB_aset_keys {α β : Type} [DecidableEq α] (l : List (α × β)) (a : α) (b : β)
    (h : nodupB (l.map Prod.fst) = true) : nodupB ((aset l a b).map Prod.fst) = true := by
  rw [aset_keys]
  by_cases hm : memDec a (l.map Prod.fst) = true
  · simp [hm, h]
  · simp only [hm, if_false]
    exact nodupB_append_new a _ h (Bool.not_eq_true _ ▸ (by simpa using hm))

/-- The line 190-193 regrouping produces one entry per distinct
(params, scenario, measures, priceables) signature: its key list is
duplicate-free, whatever the accumulator it starts from (so in
particular starting from the empty dict). -/
theorem rbdmFold_nodup :
    ∀ (rfp : List ((GKey × List Nat) × List Priceable))
      (acc : List (DMKey × List (Nat × Market))),
    nodupB (acc.map Prod.fst) = true →
    nodupB ((rfp.foldl rbdmStep acc).map Prod.fst) = true := by
  intro rfp
  induction rfp with
  | nil => intro acc h; exact h
  | cons kv rest ih =>
      intro acc h
      exact ih (rbdmStep acc kv) (by
        simp only [rbdmStep]
        exact nodupB_aset_keys _ _ _ h)

/-- Contexts sharing everything with ctxOther except the pricing date. -/
def ctxD1 : CtxCfg := ⟨2, 10, mkt0, none, false, false, false, false⟩

/-- Second date-variant context (date 20). -/
def ctxD2 : CtxCfg := ⟨3, 20, mkt0, none, false, false, false, false⟩

/-- Second instrument priced by provider 0. -/
def instC : Priceable := ⟨2, 0, 1⟩

/-- World with instA pending at date 10 and instC pending at date 20
(same provider, measure, parameters and scenario), registered in
entered ctxOther via nested date-variant contexts. -/
def wSplit : World :=
  (calcRegister ctxD2 instC 5 ((calcRegister ctxD1 instA 5 wEntered).2)).2

/-- World with BOTH instruments pending at BOTH dates, registered in a
consistent order: the symmetric cross-product case. -/
def wCross : World :=
  (calcRegister ctxD2 instC 5 ((calcRegister ctxD2 instA 5 ((calcRegister ctxD1 instC 5
    ((calcRegister ctxD1 instA 5 wEntered).2)).2)).2)).2

/-- Claim C7, counterexample.  N = 2 pending priceables (instA at date
10, instC at date 20) sharing provider, risk-measure set, parameters
and scenario, spanning M = 2 distinct (date, market) pairs: the flush
emits TWO outbound requests, not one, because the line 190-193 regroup
key includes the tuple of priceables, and the per-(date, market)
priceable lists ([instA] and [instC]) differ. -/
theorem C7_cex :
    (riskKeyOf ctxD1 [] 5 0).params = (riskKeyOf ctxD2 [] 5 0).params ∧
    (riskKeyOf ctxD1 [] 5 0).scenario = (riskKeyOf ctxD2 [] 5 0).scenario ∧
    (riskKeyOf ctxD1 [] 5 0).riskMeasure = (riskKeyOf ctxD2 [] 5 0).riskMeasure ∧
    (riskKeyOf ctxD1 [] 5 0).provider = (riskKeyOf ctxD2 [] 5 0).provider ∧
    (riskKeyOf ctxD1 [] 5 0).date ≠ (riskKeyOf ctxD2 [] 5 0).date ∧
    alookup (wSplit.pendingOf ctxOther.cid) (riskKeyOf ctxD1 [] 5 0, instA) = some 0 ∧
    alookup (wSplit.pendingOf ctxOther.cid) (riskKeyOf ctxD2 [] 5 0, instC) = some 1 ∧
    (providerRequests ctxOther wSplit).map (fun pv => (pv.1, pv.2.length)) = [(0, 2)] := by
  decide

/-- Claim C7 (amended): the flush emits exactly one outbound request
per distinct (parameters, scenario, sorted risk measures, priceable
list) signature — not per (date, market) — with each request carrying
its signature's distinct (date, market) pairs sorted by (date, market);
N priceables spanning M pairs collapse into a single request holding
all N positions and all M sorted as-of pairs exactly when every
(date, market) group lists the same priceables in the same order, as in
the concrete cross-product instance below. -/
theorem C7_one_request_per_signature :
    (∀ rfp : List ((GKey × List Nat) × List Priceable),
      nodupB ((requestsByDateMarket rfp).map Prod.fst) = true) ∧
    (∀ (selfc : CtxCfg) (rbdm : List (DMKey × List (Nat × Market))),
      (buildRequests selfc rbdm).length = rbdm.length) ∧
    (∀ (selfc : CtxCfg) (rbdm : List (DMKey × List (Nat × Market))),
      ((buildRequests selfc rbdm).all (fun r => sortedByB dmLeAsOf r.asOf)) = true) ∧
    providerRequests ctxOther wCross
      = [(0, [{ positions := [⟨instA, 1⟩, ⟨instC, 1⟩]
                riskMeasures := [5]
                parameters := ⟨none, true⟩
                waitForResults := true
                scenario := none
                asOf := [⟨10, mkt0⟩, ⟨20, mkt0⟩]
                visibleToGs := false }])] := by
  refine ⟨fun rfp => rbdmFold_nodup rfp [] rfl, fun selfc rbdm => by simp [buildRequests],
    ?_, by decide⟩
  intro selfc rbdm
  rw [List.all_eq_true]
  intro r hr
  obtain ⟨kv, _, hkv⟩ := List.mem_map.mp hr
  rw [← hkv]
  exact sortedByB_map_asOf _ (sortedByB_sortLe dmLe dmLe_total kv.2)
